import Mathlib

/-!
Shallow embedding of the `pngme-LE` PNG-chunk codec.

Bytes are modelled as `Nat` values (`< 256` on the byte domain), buffers as
`List Nat`, fallible constructors as `Except String`, mirroring the Rust
`Result<T, Box<dyn Error>>` with its message strings.
-/

deriving instance DecidableEq for Except

namespace Png

/-! ## UTF-8 (model of the standard library's strict `String::from_utf8`
and of Rust's `str` byte representation) -/

namespace Utf8

/-- UTF-8 encoding of a single unicode scalar value, by size class. -/
def encodeChar (n : Nat) : List Nat :=
  if n < 0x80 then [n]
  else if n < 0x800 then
    [0xC0 + n / 64, 0x80 + n % 64]
  else if n < 0x10000 then
    [0xE0 + n / 4096, 0x80 + n / 64 % 64, 0x80 + n % 64]
  else
    [0xF0 + n / 0x40000, 0x80 + n / 4096 % 64, 0x80 + n / 64 % 64, 0x80 + n % 64]

/-- UTF-8 encoding of a sequence of characters (the byte representation a
Rust `String`/`str` holds). -/
def encode (cs : List Char) : List Nat :=
  (cs.map (fun c => encodeChar c.toNat)).flatten

/-- Is `b` a UTF-8 continuation byte (`0x80..=0xBF`)? -/
def isCont (b : Nat) : Prop :=
  0x80 ≤ b ∧ b ≤ 0xBF

instance (b : Nat) : Decidable (isCont b) := by
  unfold isCont; infer_instance

/-- One-codepoint-at-a-time strict UTF-8 decoding, as performed by
`String::from_utf8`'s validation loop. The state carries, mid-sequence, the
number of continuation bytes still expected, the partially accumulated
scalar value, and the minimum value the finished scalar may take (which
rejects overlong encodings); the final guard also rejects surrogate code
points and values above `0x10FFFF`. -/
def decodeSt : Option (Nat × Nat × Nat) → List Nat → Option (List Char)
  | none, [] => some []
  | some _, [] => none
  | none, b :: rest =>
    if b ≤ 0x7F then (decodeSt none rest).map (fun cs => Char.ofNat b :: cs)
    else if 0xC0 ≤ b ∧ b ≤ 0xDF then decodeSt (some (1, b - 0xC0, 0x80)) rest
    else if 0xE0 ≤ b ∧ b ≤ 0xEF then decodeSt (some (2, b - 0xE0, 0x800)) rest
    else if 0xF0 ≤ b ∧ b ≤ 0xF7 then decodeSt (some (3, b - 0xF0, 0x10000)) rest
    else none
  | some (k, cp, lo), b :: rest =>
    if isCont b then
      if k ≤ 1 then
        if lo ≤ cp * 64 + (b - 0x80) ∧ cp * 64 + (b - 0x80) ≤ 0x10FFFF ∧
            (cp * 64 + (b - 0x80) < 0xD800 ∨ 0xDFFF < cp * 64 + (b - 0x80)) then
          (decodeSt none rest).map (fun cs => Char.ofNat (cp * 64 + (b - 0x80)) :: cs)
        else none
      else decodeSt (some (k - 1, cp * 64 + (b - 0x80), lo)) rest
    else none

/-- Strict UTF-8 decoding of a byte buffer. -/
def decode (bs : List Nat) : Option (List Char) :=
  decodeSt none bs

end Utf8

/-! ## CRC-32, ISO-HDLC variant (model of the `crc` crate's
`Crc::<u32>::new(&CRC_32_ISO_HDLC).checksum`) -/

/-- One bit step of the reflected CRC-32 computation: shift right, folding
in the reversed polynomial `0xEDB88320` when the low bit is set. -/
def crcBit (c : Nat) : Nat :=
  if c % 2 = 1 then Nat.xor (c / 2) 0xEDB88320 else c / 2

/-- Absorb one byte: xor it into the register, then run eight bit steps. -/
def crcByte (c b : Nat) : Nat :=
  crcBit (crcBit (crcBit (crcBit (crcBit (crcBit (crcBit (crcBit (Nat.xor c b))))))))

/-- CRC-32 (ISO-HDLC): initial register `0xFFFFFFFF`, final complement. -/
def crc32 (bs : List Nat) : Nat :=
  Nat.xor (bs.foldl crcByte 0xFFFFFFFF) 0xFFFFFFFF

/-! ## Big-endian 32-bit integers -/

/-- `u32::to_be_bytes`. -/
def be32 (n : Nat) : List Nat :=
  [n / 0x1000000 % 256, n / 0x10000 % 256, n / 0x100 % 256, n % 256]

/-- `u32::from_be_bytes`. -/
def fromBe32 (b0 b1 b2 b3 : Nat) : Nat :=
  ((b0 * 256 + b1) * 256 + b2) * 256 + b3

/-! ## `ChunkType` (`src/chunk_type.rs`) -/

/-- A PNG chunk type code: four bytes, stored in the four named fields of
the Rust struct. -/
structure ChunkType where
  ancillary : Nat
  «private» : Nat
  reserved : Nat
  safe_to_copy : Nat
  deriving DecidableEq

namespace ChunkType

/-- `ChunkType::bytes`: the raw chunk type bytes. -/
def bytes (t : ChunkType) : List Nat :=
  [t.ancillary, t.«private», t.reserved, t.safe_to_copy]

/-- `ChunkType::is_critical`: byte 0 bit 5 clear. -/
def is_critical (t : ChunkType) : Bool :=
  Nat.land t.ancillary 32 == 0

/-- `ChunkType::is_public`: byte 1 bit 5 clear. -/
def is_public (t : ChunkType) : Bool :=
  Nat.land t.«private» 32 == 0

/-- `ChunkType::is_reserved_bit_valid`: byte 2 bit 5 clear. -/
def is_reserved_bit_valid (t : ChunkType) : Bool :=
  Nat.land t.reserved 32 == 0

/-- `ChunkType::is_safe_to_copy`: byte 3 bit 5 set. -/
def is_safe_to_copy (t : ChunkType) : Bool :=
  Nat.land t.safe_to_copy 32 != 0

/-- `ChunkType::is_valid`. -/
def is_valid (t : ChunkType) : Bool :=
  t.is_reserved_bit_valid

/-- An ASCII letter byte, `b'a'..=b'z'` or `b'A'..=b'Z'`. -/
def isLetter (b : Nat) : Prop :=
  (0x61 ≤ b ∧ b ≤ 0x7A) ∨ (0x41 ≤ b ∧ b ≤ 0x5A)

instance (b : Nat) : Decidable (isLetter b) := by
  unfold isLetter; infer_instance

/-- `<ChunkType as TryFrom<[u8; 4]>>::try_from`: each byte must be an ASCII
letter; the first offending byte's index is reported. -/
def try_from (b0 b1 b2 b3 : Nat) : Except String ChunkType :=
  if ¬ isLetter b0 then .error ("byte 0 is out of range")
  else if ¬ isLetter b1 then .error ("byte 1 is out of range")
  else if ¬ isLetter b2 then .error ("byte 2 is out of range")
  else if ¬ isLetter b3 then .error ("byte 3 is out of range")
  else .ok ⟨b0, b1, b2, b3⟩

/-- `<ChunkType as FromStr>::from_str`: `value.len()` in Rust is the UTF-8
byte length; `value.as_bytes()` the UTF-8 bytes. -/
def from_str (value : String) : Except String ChunkType :=
  let bs := Utf8.encode value.data
  if bs.length ≠ 4 then .error ("`value` must be exactly 4 bytes long")
  else try_from (bs.getD 0 0) (bs.getD 1 0) (bs.getD 2 0) (bs.getD 3 0)

/-- `<ChunkType as Display>::fmt`: `String::from_utf8_lossy` over the four
bytes; on constructor-validated type codes all bytes are ASCII letters, so
the lossy conversion is the plain ASCII character map. -/
def toDisplayString (t : ChunkType) : String :=
  String.mk (t.bytes.map Char.ofNat)

end ChunkType

/-! ## `Chunk` (`src/chunk.rs`) -/

/-- A PNG chunk: a type code plus its owned payload bytes. -/
structure Chunk where
  chunk_type : ChunkType
  data : List Nat
  deriving DecidableEq

namespace Chunk

/-- `Chunk::new`: no validation, fields stored verbatim. -/
def new (chunk_type : ChunkType) (data : List Nat) : Chunk :=
  ⟨chunk_type, data⟩

/-- `Chunk::length`: `self.data.len() as u32`, a truncating cast. -/
def length (c : Chunk) : Nat :=
  c.data.length % 2 ^ 32

/-- `Chunk::crc`: CRC-32 (ISO-HDLC) over type bytes followed by payload. -/
def crc (c : Chunk) : Nat :=
  crc32 (c.chunk_type.bytes ++ c.data)

/-- `Chunk::data_as_string`: strict UTF-8 decoding of the payload. -/
def data_as_string (c : Chunk) : Except String String :=
  match Utf8.decode c.data with
  | some cs => .ok (String.mk cs)
  | none => .error ("chunk data is not valid utf8")

/-- `Chunk::as_bytes`: big-endian length, type bytes, payload, big-endian
checksum. -/
def as_bytes (c : Chunk) : List Nat :=
  be32 c.length ++ c.chunk_type.bytes ++ c.data ++ be32 c.crc

/-- `<Chunk as TryFrom<&[u8]>>::try_from`: length guard, declared-length
check, type-code validation, payload copy, checksum verification. -/
def try_from (value : List Nat) : Except String Chunk :=
  if value.length < 12 then .error ("invalid chunk data (incomplete)")
  else
    let chunk_length := fromBe32 (value.getD 0 0) (value.getD 1 0) (value.getD 2 0) (value.getD 3 0)
    if value.length = 12 + chunk_length then
      match ChunkType.try_from (value.getD 4 0) (value.getD 5 0) (value.getD 6 0) (value.getD 7 0) with
      | .error e => .error e
      | .ok chunk_type =>
        let chunk_data := (value.drop 8).take chunk_length
        let crcTail := value.drop (8 + chunk_length)
        let chunk_crc := fromBe32 (crcTail.getD 0 0) (crcTail.getD 1 0) (crcTail.getD 2 0) (crcTail.getD 3 0)
        let unchecked_chunk := Chunk.new chunk_type chunk_data
        if unchecked_chunk.crc = chunk_crc then .ok unchecked_chunk
        else .error ("checksum does not match data")
    else .error ("invalid chunk data (invalid length)")

end Chunk

/-! ## Spec-side readers over raw buffers (used to state the decode
rejection properties) -/

/-- The length field a buffer declares: bytes `[0..4)` read big-endian. -/
def declaredLen (v : List Nat) : Nat :=
  fromBe32 (v.getD 0 0) (v.getD 1 0) (v.getD 2 0) (v.getD 3 0)

/-- The trailing 4 bytes of a buffer, read as a big-endian `u32`. -/
def crcField (v : List Nat) : Nat :=
  fromBe32 ((v.drop (v.length - 4)).getD 0 0) ((v.drop (v.length - 4)).getD 1 0)
    ((v.drop (v.length - 4)).getD 2 0) ((v.drop (v.length - 4)).getD 3 0)

/-- The 4 type bytes followed by the payload bytes of a buffer. -/
def typePlusPayload (v : List Nat) : List Nat :=
  (v.drop 4).take 4 ++ (v.drop 8).take (v.length - 12)

/-! ## The concrete test vector of the repository's test suite -/

/-- The payload text of the worked example. -/
def secretMessage : String := "This is where your secret message will be!"

/-- Its ASCII byte values. -/
def secretMessageBytes : List Nat := secretMessage.data.map Char.toNat

/-- Declared length 42, type `"RuSt"`, the message, CRC `2882656334`. -/
def testVector : List Nat :=
  be32 42 ++ [82, 117, 83, 116] ++ secretMessageBytes ++ be32 2882656334

/-- The same buffer with the trailing CRC field replaced by `2882656333`. -/
def testVectorBadCrc : List Nat :=
  be32 42 ++ [82, 117, 83, 116] ++ secretMessageBytes ++ be32 2882656333

/-- A small concrete chunk used as a witness input. -/
def sampleChunk : Chunk := ⟨⟨82, 117, 83, 116⟩, [1, 2, 3]⟩

/-! ## Helper lemmas -/

theorem fromBe32_be32 {n : Nat} (h : n < 2 ^ 32) :
    fromBe32 (n / 0x1000000 % 256) (n / 0x10000 % 256) (n / 0x100 % 256) (n % 256) = n := by
  unfold fromBe32
  omega

theorem be32_fromBe32 {b0 b1 b2 b3 : Nat} (h0 : b0 < 256) (h1 : b1 < 256)
    (h2 : b2 < 256) (h3 : b3 < 256) :
    be32 (fromBe32 b0 b1 b2 b3) = [b0, b1, b2, b3] := by
  unfold be32 fromBe32
  simp only [List.cons.injEq, and_true]
  omega

theorem fromBe32_lt {b0 b1 b2 b3 : Nat} (h0 : b0 < 256) (h1 : b1 < 256)
    (h2 : b2 < 256) (h3 : b3 < 256) : fromBe32 b0 b1 b2 b3 < 2 ^ 32 := by
  unfold fromBe32
  omega

theorem length_eq_four {α : Type} {l : List α} :
    l.length = 4 ↔ ∃ a b c d, l = [a, b, c, d] := by
  constructor
  · intro h
    match l, h with
    | [a, b, c, d], _ => exact ⟨a, b, c, d, rfl⟩
  · rintro ⟨a, b, c, d, rfl⟩
    rfl

theorem crcBit_lt {c : Nat} (h : c < 2 ^ 32) : crcBit c < 2 ^ 32 := by
  unfold crcBit
  split
  · exact Nat.xor_lt_two_pow (by omega) (by norm_num)
  · omega

theorem crcByte_lt {c b : Nat} (hc : c < 2 ^ 32) (hb : b < 256) :
    crcByte c b < 2 ^ 32 := by
  unfold crcByte
  have h0 : Nat.xor c b < 2 ^ 32 := Nat.xor_lt_two_pow hc (by omega)
  exact crcBit_lt (crcBit_lt (crcBit_lt (crcBit_lt (crcBit_lt (crcBit_lt
    (crcBit_lt (crcBit_lt h0)))))))

theorem foldl_crcByte_lt {bs : List Nat} :
    ∀ {c : Nat}, c < 2 ^ 32 → (∀ b ∈ bs, b < 256) →
      bs.foldl crcByte c < 2 ^ 32 := by
  induction bs with
  | nil => intro c hc _; simpa using hc
  | cons b bs ih =>
    intro c hc hb
    simp only [List.foldl_cons]
    exact ih (crcByte_lt hc (hb b (by simp))) fun x hx => hb x (by simp [hx])

theorem crc32_lt {bs : List Nat} (h : ∀ b ∈ bs, b < 256) : crc32 bs < 2 ^ 32 :=
  Nat.xor_lt_two_pow (foldl_crcByte_lt (by norm_num) h) (by norm_num)

namespace ChunkType

theorem isLetter_lt {b : Nat} (h : isLetter b) : b < 256 := by
  rcases h with ⟨h1, h2⟩ | ⟨h1, h2⟩ <;> omega

theorem try_from_ok {b0 b1 b2 b3 : Nat} (h0 : isLetter b0) (h1 : isLetter b1)
    (h2 : isLetter b2) (h3 : isLetter b3) :
    try_from b0 b1 b2 b3 = .ok ⟨b0, b1, b2, b3⟩ := by
  unfold try_from
  rw [if_neg (not_not_intro h0), if_neg (not_not_intro h1),
    if_neg (not_not_intro h2), if_neg (not_not_intro h3)]

theorem try_from_ok_inv {b0 b1 b2 b3 : Nat} {t : ChunkType}
    (h : try_from b0 b1 b2 b3 = .ok t) :
    t = ⟨b0, b1, b2, b3⟩ ∧ isLetter b0 ∧ isLetter b1 ∧ isLetter b2 ∧ isLetter b3 := by
  unfold try_from at h
  split_ifs at h with g0 g1 g2 g3
  simp only [Except.ok.injEq] at h
  exact ⟨h.symm, g0, g1, g2, g3⟩

end ChunkType


theorem Chunk.try_from_as_bytes (t : ChunkType) (d : List Nat)
    (hl : ∀ b ∈ t.bytes, ChunkType.isLetter b)
    (hd : ∀ b ∈ d, b < 256) (hlen : d.length < 2 ^ 32) :
    Chunk.try_from (Chunk.as_bytes (Chunk.new t d)) = .ok (Chunk.new t d) := by
  obtain ⟨a, p, r, s⟩ := t
  have ha : ChunkType.isLetter a := hl a (by simp [ChunkType.bytes])
  have hp : ChunkType.isLetter p := hl p (by simp [ChunkType.bytes])
  have hr : ChunkType.isLetter r := hl r (by simp [ChunkType.bytes])
  have hs : ChunkType.isLetter s := hl s (by simp [ChunkType.bytes])
  have hlen' : d.length % 2 ^ 32 = d.length := Nat.mod_eq_of_lt hlen
  set C := crc32 (a :: p :: r :: s :: d) with hCdef
  have hcrc : C < 2 ^ 32 := by
    apply crc32_lt
    intro b hb
    simp only [List.mem_cons] at hb
    rcases hb with rfl | rfl | rfl | rfl | hb
    · exact ChunkType.isLetter_lt ha
    · exact ChunkType.isLetter_lt hp
    · exact ChunkType.isLetter_lt hr
    · exact ChunkType.isLetter_lt hs
    · exact hd b hb
  have hnewcrc : (Chunk.mk ⟨a, p, r, s⟩ d).crc = C := by
    simp [Chunk.crc, ChunkType.bytes, hCdef]
  simp only [Chunk.new]
  have hbytes : Chunk.as_bytes (Chunk.mk ⟨a, p, r, s⟩ d) =
      (d.length / 0x1000000 % 256) :: (d.length / 0x10000 % 256) ::
      (d.length / 0x100 % 256) :: (d.length % 256) ::
      a :: p :: r :: s ::
      (d ++ [C / 0x1000000 % 256, C / 0x10000 % 256, C / 0x100 % 256, C % 256]) := by
    simp only [Chunk.as_bytes, Chunk.length, hnewcrc, ChunkType.bytes, be32,
      List.cons_append, List.nil_append, hlen']
  rw [hbytes]
  have hvlen : ((d.length / 0x1000000 % 256) :: (d.length / 0x10000 % 256) ::
      (d.length / 0x100 % 256) :: (d.length % 256) ::
      a :: p :: r :: s ::
      (d ++ [C / 0x1000000 % 256, C / 0x10000 % 256, C / 0x100 % 256, C % 256])).length
      = 12 + d.length := by
    simp
    omega
  unfold Chunk.try_from
  rw [if_neg (by omega)]
  simp only [List.getD_cons_zero, List.getD_cons_succ]
  rw [fromBe32_be32 hlen]
  rw [if_pos hvlen]
  rw [ChunkType.try_from_ok ha hp hr hs]
  have hdrop8 : ∀ n : Nat, ((d.length / 0x1000000 % 256) :: (d.length / 0x10000 % 256) ::
      (d.length / 0x100 % 256) :: (d.length % 256) ::
      a :: p :: r :: s ::
      (d ++ [C / 0x1000000 % 256, C / 0x10000 % 256, C / 0x100 % 256, C % 256])).drop (8 + n)
      = (d ++ [C / 0x1000000 % 256, C / 0x10000 % 256, C / 0x100 % 256, C % 256]).drop n := by
    intro n
    rw [Nat.add_comm]
    simp [List.drop_succ_cons]
  simp only [List.drop_succ_cons, List.drop_zero, hdrop8 d.length,
    List.drop_left' rfl, List.getD_cons_zero, List.getD_cons_succ,
    List.take_left' rfl, Chunk.new]
  rw [fromBe32_be32 hcrc]
  rw [if_pos hnewcrc]



theorem exists_cons8 {α : Type} {l : List α} (h : 8 ≤ l.length) :
    ∃ b0 b1 b2 b3 b4 b5 b6 b7 t,
      l = b0 :: b1 :: b2 :: b3 :: b4 :: b5 :: b6 :: b7 :: t := by
  match l, h with
  | b0 :: b1 :: b2 :: b3 :: b4 :: b5 :: b6 :: b7 :: t, _ =>
    exact ⟨b0, b1, b2, b3, b4, b5, b6, b7, t, rfl⟩

theorem Chunk.as_bytes_try_from {v : List Nat} (hv : ∀ b ∈ v, b < 256)
    {c : Chunk} (h : Chunk.try_from v = .ok c) :
    Chunk.as_bytes c = v := by
  have h12 : ¬ v.length < 12 := by
    intro hlt
    unfold Chunk.try_from at h
    rw [if_pos hlt] at h
    exact absurd h (by simp)
  obtain ⟨b0, b1, b2, b3, b4, b5, b6, b7, rest, rfl⟩ := exists_cons8 (show 8 ≤ v.length by omega)
  unfold Chunk.try_from at h
  rw [if_neg h12] at h
  simp only [List.getD_cons_zero, List.getD_cons_succ] at h
  set L := fromBe32 b0 b1 b2 b3 with hL
  by_cases hlen : (b0 :: b1 :: b2 :: b3 :: b4 :: b5 :: b6 :: b7 :: rest).length = 12 + L
  swap
  · rw [if_neg hlen] at h
    exact absurd h (by simp)
  rw [if_pos hlen] at h
  have hrest : rest.length = 4 + L := by
    simp at hlen
    omega
  -- type code
  rcases hct : ChunkType.try_from b4 b5 b6 b7 with e | ct
  · rw [hct] at h
    exact absurd h (by simp)
  rw [hct] at h
  obtain ⟨hcteq, hl4, hl5, hl6, hl7⟩ := ChunkType.try_from_ok_inv hct
  -- drop 8 and the crc tail
  have hdrop8 : (b0 :: b1 :: b2 :: b3 :: b4 :: b5 :: b6 :: b7 :: rest).drop (8 + L)
      = rest.drop L := by
    rw [Nat.add_comm]
    simp [List.drop_succ_cons]
  simp only [List.drop_succ_cons, List.drop_zero, hdrop8] at h
  have htail4 : (rest.drop L).length = 4 := by
    simp [hrest]
  obtain ⟨t0, t1, t2, t3, ht4⟩ := length_eq_four.mp htail4
  rw [ht4] at h
  simp only [List.getD_cons_zero, List.getD_cons_succ] at h
  by_cases hcrc : (Chunk.new ct (rest.take L)).crc = fromBe32 t0 t1 t2 t3
  swap
  · rw [if_neg hcrc] at h
    exact absurd h (by simp)
  rw [if_pos hcrc] at h
  simp only [Except.ok.injEq] at h
  subst h
  -- byte bounds
  have hb0 : b0 < 256 := hv b0 (by simp)
  have hb1 : b1 < 256 := hv b1 (by simp)
  have hb2 : b2 < 256 := hv b2 (by simp)
  have hb3 : b3 < 256 := hv b3 (by simp)
  have hmemt : ∀ x ∈ [t0, t1, t2, t3], x < 256 := by
    intro x hx
    apply hv
    have : x ∈ rest.drop L := by rw [ht4]; exact hx
    have : x ∈ rest := List.mem_of_mem_drop this
    simp [this]
  have ht0 : t0 < 256 := hmemt t0 (by simp)
  have ht1 : t1 < 256 := hmemt t1 (by simp)
  have ht2 : t2 < 256 := hmemt t2 (by simp)
  have ht3 : t3 < 256 := hmemt t3 (by simp)
  have hLlt : L < 2 ^ 32 := fromBe32_lt hb0 hb1 hb2 hb3
  -- now compute as_bytes
  have hdatalen : (rest.take L).length = L := by
    simp [hrest]
  have hclen : (Chunk.new ct (rest.take L)).length = L := by
    simp [Chunk.length, Chunk.new, hdatalen]
    omega
  rw [Chunk.as_bytes, hclen, hcrc, hcteq]
  rw [be32_fromBe32 hb0 hb1 hb2 hb3, be32_fromBe32 ht0 ht1 ht2 ht3]
  show [b0, b1, b2, b3] ++ [b4, b5, b6, b7] ++ rest.take L ++ [t0, t1, t2, t3]
      = b0 :: b1 :: b2 :: b3 :: b4 :: b5 :: b6 :: b7 :: rest
  rw [← ht4]
  simp [List.take_append_drop]


theorem ChunkType.try_from_error {b0 b1 b2 b3 : Nat}
    (h : ¬ (isLetter b0 ∧ isLetter b1 ∧ isLetter b2 ∧ isLetter b3)) :
    try_from b0 b1 b2 b3 = .error ("byte " ++
      toString (List.findIdx (fun b => ! decide (isLetter b)) [b0, b1, b2, b3]) ++
      " is out of range") := by
  unfold try_from
  by_cases g0 : isLetter b0
  case neg =>
    simp [g0, List.findIdx_cons]
    rfl
  by_cases g1 : isLetter b1
  case neg =>
    simp [g0, g1, List.findIdx_cons]
    rfl
  by_cases g2 : isLetter b2
  case neg =>
    simp [g0, g1, g2, List.findIdx_cons]
    rfl
  by_cases g3 : isLetter b3
  case neg =>
    simp [g0, g1, g2, g3, List.findIdx_cons]
    rfl
  exact absurd ⟨g0, g1, g2, g3⟩ h

theorem Chunk.try_from_error_of_invalid {v : List Nat}
    (h : v.length < 12 ∨ v.length ≠ 12 + declaredLen v ∨
      crcField v ≠ crc32 (typePlusPayload v)) :
    ∃ e, Chunk.try_from v = .error e := by
  by_cases h1 : v.length < 12
  · exact ⟨_, by rw [Chunk.try_from, if_pos h1]⟩
  obtain ⟨b0, b1, b2, b3, b4, b5, b6, b7, rest, rfl⟩ :=
    exists_cons8 (show 8 ≤ v.length by omega)
  by_cases h2 : (b0 :: b1 :: b2 :: b3 :: b4 :: b5 :: b6 :: b7 :: rest).length
      = 12 + declaredLen (b0 :: b1 :: b2 :: b3 :: b4 :: b5 :: b6 :: b7 :: rest)
  swap
  · refine ⟨"invalid chunk data (invalid length)", ?_⟩
    rw [Chunk.try_from, if_neg h1]
    simp only [List.getD_cons_zero, List.getD_cons_succ]
    rw [if_neg ?_]
    intro hc
    exact h2 (by simpa [declaredLen] using hc)
  -- length matches; so the CRC must be the mismatching part unless the
  -- type-code check fails first
  rcases h with h1' | h2' | h3
  · exact absurd h1' h1
  · exact absurd h2 h2'
  rw [Chunk.try_from, if_neg h1]
  simp only [List.getD_cons_zero, List.getD_cons_succ]
  rw [if_pos (by simpa [declaredLen] using h2)]
  set L := fromBe32 b0 b1 b2 b3 with hL
  have hrest : rest.length = 4 + L := by
    simp [declaredLen] at h2
    omega
  rcases hct : ChunkType.try_from b4 b5 b6 b7 with e | ct
  · exact ⟨e, rfl⟩
  obtain ⟨hcteq, _, _, _, _⟩ := ChunkType.try_from_ok_inv hct
  have hdrop8 : (b0 :: b1 :: b2 :: b3 :: b4 :: b5 :: b6 :: b7 :: rest).drop (8 + L)
      = rest.drop L := by
    rw [Nat.add_comm]
    simp [List.drop_succ_cons]
  have htail4 : (rest.drop L).length = 4 := by
    simp [hrest]
  obtain ⟨t0, t1, t2, t3, ht4⟩ := length_eq_four.mp htail4
  simp only [List.drop_succ_cons, List.drop_zero, hdrop8, ht4,
    List.getD_cons_zero, List.getD_cons_succ]
  rw [if_neg ?_]
  · exact ⟨_, rfl⟩
  -- the code-side checksum comparison is exactly the claim-side mismatch
  have hfield : crcField (b0 :: b1 :: b2 :: b3 :: b4 :: b5 :: b6 :: b7 :: rest)
      = fromBe32 t0 t1 t2 t3 := by
    have hlen12 : (b0 :: b1 :: b2 :: b3 :: b4 :: b5 :: b6 :: b7 :: rest).length - 4
        = 8 + L := by
      simp [hrest]
      omega
    rw [crcField, hlen12, hdrop8, ht4]
    simp
  have hplp : typePlusPayload (b0 :: b1 :: b2 :: b3 :: b4 :: b5 :: b6 :: b7 :: rest)
      = [b4, b5, b6, b7] ++ rest.take L := by
    have hlen12 : (b0 :: b1 :: b2 :: b3 :: b4 :: b5 :: b6 :: b7 :: rest).length - 12
        = L := by
      simp [hrest]
    rw [typePlusPayload, hlen12]
    simp
  intro heq
  apply h3
  rw [hfield, hplp, ← heq, hcteq]
  simp [Chunk.crc, Chunk.new, ChunkType.bytes]


/-- C1: for every ChunkType whose 4 bytes are ASCII letters and every payload
of fewer than `2^32` bytes, decoding the byte encoding of `Chunk::new(type,
payload)` succeeds and yields a Chunk whose type bytes, data and crc equal
the original's. -/
theorem claim_C1 (t : ChunkType) (d : List Nat)
    (hl : ∀ b ∈ t.bytes, ChunkType.isLetter b) (hd : ∀ b ∈ d, b < 256)
    (hlen : d.length < 2 ^ 32) :
    ∃ c : Chunk, Chunk.try_from (Chunk.as_bytes (Chunk.new t d)) = .ok c ∧
      c.chunk_type.bytes = t.bytes ∧ c.data = d ∧
      c.crc = (Chunk.new t d).crc :=
  ⟨Chunk.new t d, Chunk.try_from_as_bytes t d hl hd hlen, rfl, rfl, rfl⟩

/-- C1 witness at a concrete type and payload. -/
theorem claim_C1_witness :
    ∃ c : Chunk,
      Chunk.try_from (Chunk.as_bytes (Chunk.new ⟨82, 117, 83, 116⟩ [1, 2, 3])) = .ok c ∧
      c.chunk_type.bytes = ChunkType.bytes ⟨82, 117, 83, 116⟩ ∧ c.data = [1, 2, 3] ∧
      c.crc = (Chunk.new ⟨82, 117, 83, 116⟩ [1, 2, 3]).crc :=
  claim_C1 ⟨82, 117, 83, 116⟩ [1, 2, 3] (by decide) (by decide) (by decide)

/-- C2: decode returns an error (and never a Chunk) whenever the buffer is
shorter than 12 bytes, or its total length differs from 12 plus the declared
length, or its trailing 4 bytes differ from the CRC-32 recomputed over type
and payload. -/
theorem claim_C2 (v : List Nat)
    (h : v.length < 12 ∨ v.length ≠ 12 + declaredLen v ∨
      crcField v ≠ crc32 (typePlusPayload v)) :
    (∃ e, Chunk.try_from v = .error e) ∧ ∀ c : Chunk, Chunk.try_from v ≠ .ok c := by
  obtain ⟨e, he⟩ := Chunk.try_from_error_of_invalid h
  refine ⟨⟨e, he⟩, fun c hc => ?_⟩
  rw [he] at hc
  cases hc

/-- C2 witness at the empty buffer. -/
theorem claim_C2_witness :
    (∃ e, Chunk.try_from [] = .error e) ∧ ∀ c : Chunk, Chunk.try_from [] ≠ .ok c :=
  claim_C2 [] (Or.inl (by decide))

/-- C6: each flag depends only on bit `0x20` of its designated byte, and
`is_valid` is exactly `is_reserved_bit_valid`. -/
theorem claim_C6 (t u : ChunkType) :
    (t.is_critical = true ↔ Nat.land t.ancillary 32 = 0) ∧
    (t.is_public = true ↔ Nat.land t.«private» 32 = 0) ∧
    (t.is_reserved_bit_valid = true ↔ Nat.land t.reserved 32 = 0) ∧
    (t.is_safe_to_copy = true ↔ Nat.land t.safe_to_copy 32 ≠ 0) ∧
    (Nat.land t.ancillary 32 = Nat.land u.ancillary 32 →
      t.is_critical = u.is_critical) ∧
    (Nat.land t.«private» 32 = Nat.land u.«private» 32 →
      t.is_public = u.is_public) ∧
    (Nat.land t.reserved 32 = Nat.land u.reserved 32 →
      t.is_reserved_bit_valid = u.is_reserved_bit_valid) ∧
    (Nat.land t.safe_to_copy 32 = Nat.land u.safe_to_copy 32 →
      t.is_safe_to_copy = u.is_safe_to_copy) ∧
    t.is_valid = t.is_reserved_bit_valid := by
  refine ⟨?_, ?_, ?_, ?_, ?_, ?_, ?_, ?_, rfl⟩ <;>
    first
      | (intro h
         simp [ChunkType.is_critical, ChunkType.is_public,
           ChunkType.is_reserved_bit_valid, ChunkType.is_safe_to_copy, h])
      | simp [ChunkType.is_critical, ChunkType.is_public,
          ChunkType.is_reserved_bit_valid, ChunkType.is_safe_to_copy]

/-- C6 witness: `"RuSt"` against `"RuST"`, which share byte 0, so
`is_critical` agrees. -/
theorem claim_C6_witness :
    ChunkType.is_critical ⟨82, 117, 83, 116⟩ = ChunkType.is_critical ⟨82, 117, 83, 84⟩ :=
  (claim_C6 ⟨82, 117, 83, 116⟩ ⟨82, 117, 83, 84⟩).2.2.2.2.1 (by decide)

/-- C10: `Chunk::new` stores any payload unvalidated; with at least `2^32`
payload bytes, `length()` truncates modulo `2^32` (zero on exact multiples)
and the emitted length field mismatches the actual payload size. -/
theorem claim_C10 (t : ChunkType) (d : List Nat) (h : 2 ^ 32 ≤ d.length) :
    (Chunk.new t d).chunk_type = t ∧ (Chunk.new t d).data = d ∧
    (Chunk.new t d).length = d.length % 2 ^ 32 ∧
    (Chunk.new t d).length < d.length ∧
    (2 ^ 32 ∣ d.length → (Chunk.new t d).length = 0) ∧
    (Chunk.as_bytes (Chunk.new t d)).take 4 = be32 ((Chunk.new t d).length) ∧
    (Chunk.new t d).length ≠ d.length := by
  refine ⟨rfl, rfl, rfl, ?_, ?_, ?_, ?_⟩
  · have := Nat.mod_lt d.length (y := 2 ^ 32) (by norm_num)
    simp only [Chunk.length, Chunk.new]
    omega
  · intro hdvd
    simp only [Chunk.length, Chunk.new]
    omega
  · rw [Chunk.as_bytes]
    rw [List.append_assoc, List.append_assoc]
    exact List.take_left' (by simp [be32])
  · simp only [Chunk.length, Chunk.new]
    omega

/-- C10 witness at a payload of exactly `2^32` zero bytes. -/
theorem claim_C10_witness :
    (Chunk.new ⟨82, 117, 83, 116⟩ (List.replicate (2 ^ 32) 0)).chunk_type = ⟨82, 117, 83, 116⟩ ∧
    (Chunk.new ⟨82, 117, 83, 116⟩ (List.replicate (2 ^ 32) 0)).data = List.replicate (2 ^ 32) 0 ∧
    (Chunk.new ⟨82, 117, 83, 116⟩ (List.replicate (2 ^ 32) 0)).length
      = (List.replicate (2 ^ 32) 0).length % 2 ^ 32 ∧
    (Chunk.new ⟨82, 117, 83, 116⟩ (List.replicate (2 ^ 32) 0)).length
      < (List.replicate (2 ^ 32) 0).length ∧
    (2 ^ 32 ∣ (List.replicate (2 ^ 32) 0).length →
      (Chunk.new ⟨82, 117, 83, 116⟩ (List.replicate (2 ^ 32) 0)).length = 0) ∧
    (Chunk.as_bytes (Chunk.new ⟨82, 117, 83, 116⟩ (List.replicate (2 ^ 32) 0))).take 4
      = be32 ((Chunk.new ⟨82, 117, 83, 116⟩ (List.replicate (2 ^ 32) 0)).length) ∧
    (Chunk.new ⟨82, 117, 83, 116⟩ (List.replicate (2 ^ 32) 0)).length
      ≠ (List.replicate (2 ^ 32) 0).length :=
  claim_C10 ⟨82, 117, 83, 116⟩ (List.replicate (2 ^ 32) 0)
    (le_of_eq (List.length_replicate (2 ^ 32) 0).symm)


/-- C5: 4-byte ChunkType construction succeeds iff every byte is an ASCII
letter; on success the bytes are held verbatim; on failure the error names
the first offending byte index. -/
theorem claim_C5 (b0 b1 b2 b3 : Nat) :
    ((∃ t, ChunkType.try_from b0 b1 b2 b3 = .ok t) ↔
      (((0x41 ≤ b0 ∧ b0 ≤ 0x5A) ∨ (0x61 ≤ b0 ∧ b0 ≤ 0x7A)) ∧
       ((0x41 ≤ b1 ∧ b1 ≤ 0x5A) ∨ (0x61 ≤ b1 ∧ b1 ≤ 0x7A)) ∧
       ((0x41 ≤ b2 ∧ b2 ≤ 0x5A) ∨ (0x61 ≤ b2 ∧ b2 ≤ 0x7A)) ∧
       ((0x41 ≤ b3 ∧ b3 ≤ 0x5A) ∨ (0x61 ≤ b3 ∧ b3 ≤ 0x7A)))) ∧
    (∀ t, ChunkType.try_from b0 b1 b2 b3 = .ok t → t.bytes = [b0, b1, b2, b3]) ∧
    (¬ (ChunkType.isLetter b0 ∧ ChunkType.isLetter b1 ∧
        ChunkType.isLetter b2 ∧ ChunkType.isLetter b3) →
      ChunkType.try_from b0 b1 b2 b3 = .error ("byte " ++
        toString (List.findIdx (fun b => ! decide (ChunkType.isLetter b)) [b0, b1, b2, b3]) ++
        " is out of range")) := by
  have hiff : ∀ b : Nat, ChunkType.isLetter b ↔
      ((0x41 ≤ b ∧ b ≤ 0x5A) ∨ (0x61 ≤ b ∧ b ≤ 0x7A)) := by
    intro b
    unfold ChunkType.isLetter
    tauto
  refine ⟨⟨?_, ?_⟩, ?_, ChunkType.try_from_error⟩
  · rintro ⟨t, ht⟩
    obtain ⟨-, h0, h1, h2, h3⟩ := ChunkType.try_from_ok_inv ht
    exact ⟨(hiff b0).mp h0, (hiff b1).mp h1, (hiff b2).mp h2, (hiff b3).mp h3⟩
  · rintro ⟨h0, h1, h2, h3⟩
    exact ⟨_, ChunkType.try_from_ok ((hiff b0).mpr h0) ((hiff b1).mpr h1)
      ((hiff b2).mpr h2) ((hiff b3).mpr h3)⟩
  · intro t ht
    rw [(ChunkType.try_from_ok_inv ht).1]
    rfl

/-- C5 witness: the all-letters direction at `"RuSt"` and the error shape at
a non-letter byte. -/
theorem claim_C5_witness :
    (∃ t, ChunkType.try_from 82 117 83 116 = .ok t) ∧
    ChunkType.try_from 82 117 49 116 = .error ("byte " ++
      toString (List.findIdx (fun b => ! decide (ChunkType.isLetter b)) [82, 117, 49, 116]) ++
      " is out of range") :=
  ⟨(claim_C5 82 117 83 116).1.mpr (by decide),
   (claim_C5 82 117 49 116).2.2 (by decide)⟩

/-- C3: `as_bytes` lays out, in order, the big-endian length, the raw type
bytes, the raw payload and the big-endian checksum, totalling `12 + length()`
bytes; the two 32-bit fields decode back to `length()` and `crc()`. -/
theorem claim_C3 (c : Chunk) (ht : ∀ b ∈ c.chunk_type.bytes, b < 256)
    (hd : ∀ b ∈ c.data, b < 256) (hlen : c.data.length < 2 ^ 32) :
    c.as_bytes = be32 c.length ++ c.chunk_type.bytes ++ c.data ++ be32 c.crc ∧
    c.as_bytes.length = 12 + c.length ∧
    c.length = c.data.length ∧
    declaredLen c.as_bytes = c.length ∧
    typePlusPayload c.as_bytes = c.chunk_type.bytes ++ c.data ∧
    crcField c.as_bytes = c.crc := by
  obtain ⟨⟨a, p, r, s⟩, d⟩ := c
  simp only [ChunkType.bytes, List.mem_cons, List.not_mem_nil, or_false] at ht
  have ha : a < 256 := ht a (by tauto)
  have hp : p < 256 := ht p (by tauto)
  have hr : r < 256 := ht r (by tauto)
  have hs : s < 256 := ht s (by tauto)
  simp only at hd hlen
  have hlen' : d.length % 2 ^ 32 = d.length := Nat.mod_eq_of_lt hlen
  set C := crc32 (a :: p :: r :: s :: d) with hCdef
  have hcrc : C < 2 ^ 32 := by
    apply crc32_lt
    intro b hb
    simp only [List.mem_cons] at hb
    rcases hb with rfl | rfl | rfl | rfl | hb
    · exact ha
    · exact hp
    · exact hr
    · exact hs
    · exact hd b hb
  have hnewcrc : (Chunk.mk ⟨a, p, r, s⟩ d).crc = C := by
    simp [Chunk.crc, ChunkType.bytes, hCdef]
  have hclen : (Chunk.mk ⟨a, p, r, s⟩ d).length = d.length := by
    simp only [Chunk.length]
    omega
  have hbytes : Chunk.as_bytes (Chunk.mk ⟨a, p, r, s⟩ d) =
      (d.length / 0x1000000 % 256) :: (d.length / 0x10000 % 256) ::
      (d.length / 0x100 % 256) :: (d.length % 256) ::
      a :: p :: r :: s ::
      (d ++ [C / 0x1000000 % 256, C / 0x10000 % 256, C / 0x100 % 256, C % 256]) := by
    simp only [Chunk.as_bytes, Chunk.length, hnewcrc, ChunkType.bytes, be32,
      List.cons_append, List.nil_append, hlen']
  have hblen : (Chunk.as_bytes (Chunk.mk ⟨a, p, r, s⟩ d)).length = 12 + d.length := by
    rw [hbytes]
    simp
    omega
  refine ⟨rfl, by rw [hblen, hclen], hclen, ?_, ?_, ?_⟩
  · rw [declaredLen, hbytes]
    simp only [List.getD_cons_zero, List.getD_cons_succ]
    rw [fromBe32_be32 hlen, hclen]
  · rw [typePlusPayload, hbytes]
    have h12 : ((d.length / 0x1000000 % 256) :: (d.length / 0x10000 % 256) ::
        (d.length / 0x100 % 256) :: (d.length % 256) ::
        a :: p :: r :: s ::
        (d ++ [C / 0x1000000 % 256, C / 0x10000 % 256, C / 0x100 % 256, C % 256])).length - 12
        = d.length := by
      simp
    rw [h12]
    simp [ChunkType.bytes, List.take_left' rfl]
  · have h4 : ((d.length / 0x1000000 % 256) :: (d.length / 0x10000 % 256) ::
        (d.length / 0x100 % 256) :: (d.length % 256) ::
        a :: p :: r :: s ::
        (d ++ [C / 0x1000000 % 256, C / 0x10000 % 256, C / 0x100 % 256, C % 256])).length - 4
        = 8 + d.length := by
      simp
      omega
    have hdrop8 : ((d.length / 0x1000000 % 256) :: (d.length / 0x10000 % 256) ::
        (d.length / 0x100 % 256) :: (d.length % 256) ::
        a :: p :: r :: s ::
        (d ++ [C / 0x1000000 % 256, C / 0x10000 % 256, C / 0x100 % 256, C % 256])).drop
          (8 + d.length)
        = [C / 0x1000000 % 256, C / 0x10000 % 256, C / 0x100 % 256, C % 256] := by
      rw [Nat.add_comm]
      simp only [List.drop_succ_cons]
      exact List.drop_left' rfl
    rw [crcField, hbytes, h4, hdrop8]
    simp only [List.getD_cons_zero, List.getD_cons_succ]
    rw [fromBe32_be32 hcrc, hnewcrc]


/-- C3 witness at a small concrete chunk. -/
theorem claim_C3_witness :
    sampleChunk.as_bytes = be32 sampleChunk.length ++ sampleChunk.chunk_type.bytes ++
      sampleChunk.data ++ be32 sampleChunk.crc ∧
    sampleChunk.as_bytes.length = 12 + sampleChunk.length ∧
    sampleChunk.length = sampleChunk.data.length ∧
    declaredLen sampleChunk.as_bytes = sampleChunk.length ∧
    typePlusPayload sampleChunk.as_bytes = sampleChunk.chunk_type.bytes ++ sampleChunk.data ∧
    crcField sampleChunk.as_bytes = sampleChunk.crc :=
  claim_C3 sampleChunk (by decide) (by decide) (by decide)

set_option maxRecDepth 100000 in
/-- C4: the repository's worked test vector decodes to a chunk with length
42, type string `"RuSt"`, CRC `2882656334` and the original message text;
the same buffer with CRC `2882656333` is rejected with the checksum error. -/
theorem claim_C4 :
    (∃ c : Chunk, Chunk.try_from testVector = .ok c ∧ c.length = 42 ∧
      c.chunk_type.toDisplayString = "RuSt" ∧ c.crc = 2882656334 ∧
      c.data_as_string = .ok secretMessage) ∧
    Chunk.try_from testVectorBadCrc = .error ("checksum does not match data") := by
  refine ⟨⟨Chunk.mk ⟨82, 117, 83, 116⟩ secretMessageBytes, ?_, ?_, ?_, ?_, ?_⟩, ?_⟩ <;> decide

/-- C7 counterexample: `"éé"` has 2 characters (not 4), yet `from_str` does
not fail with the length error — its UTF-8 form is 4 bytes, so the length
check passes and the byte check reports byte 0 instead; conversely `"Ru1t"`
has exactly 4 characters and still fails. -/
theorem claim_C7_counterexample :
    ("éé".length ≠ 4 ∧
      ChunkType.from_str "éé" = .error ("byte 0 is out of range")) ∧
    ("Ru1t".length = 4 ∧
      ChunkType.from_str "Ru1t" = .error ("byte 2 is out of range")) := by
  refine ⟨⟨?_, ?_⟩, ?_, ?_⟩ <;> decide

/-- C7 amended: `from_str` fails with the length error exactly when the
input's UTF-8 byte length is not 4, and otherwise delegates to the 4-byte
constructor. -/
theorem claim_C7_amended (s : String) :
    ((Utf8.encode s.data).length ≠ 4 →
      ChunkType.from_str s = .error ("`value` must be exactly 4 bytes long")) ∧
    ((Utf8.encode s.data).length = 4 →
      ChunkType.from_str s = ChunkType.try_from ((Utf8.encode s.data).getD 0 0)
        ((Utf8.encode s.data).getD 1 0) ((Utf8.encode s.data).getD 2 0)
        ((Utf8.encode s.data).getD 3 0)) := by
  constructor
  · intro h
    unfold ChunkType.from_str
    simp only [if_pos h]
  · intro h
    unfold ChunkType.from_str
    simp only [h]
    simp

/-- C7 witness: a 3-byte input takes the length error, a 4-byte input
delegates. -/
theorem claim_C7_witness :
    ChunkType.from_str "abc" = .error ("`value` must be exactly 4 bytes long") ∧
    ChunkType.from_str "RuSt" = ChunkType.try_from ((Utf8.encode "RuSt".data).getD 0 0)
      ((Utf8.encode "RuSt".data).getD 1 0) ((Utf8.encode "RuSt".data).getD 2 0)
      ((Utf8.encode "RuSt".data).getD 3 0) :=
  ⟨(claim_C7_amended "abc").1 (by decide), (claim_C7_amended "RuSt").2 (by decide)⟩

/-- C9: any buffer accepted by decode is reproduced exactly by re-encoding
the resulting chunk. -/
theorem claim_C9 (v : List Nat) (hv : ∀ b ∈ v, b < 256) (c : Chunk)
    (h : Chunk.try_from v = .ok c) : c.as_bytes = v :=
  Chunk.as_bytes_try_from hv h

set_option maxRecDepth 100000 in
/-- C9 witness at the repository's test vector. -/
theorem claim_C9_witness :
    (Chunk.mk ⟨82, 117, 83, 116⟩ secretMessageBytes).as_bytes = testVector :=
  claim_C9 testVector (by decide) (Chunk.mk ⟨82, 117, 83, 116⟩ secretMessageBytes) (by decide)


end Png

namespace Png

namespace Utf8

theorem toNat_ofNat_valid {n : Nat} (h : n.isValidChar) : (Char.ofNat n).toNat = n := by
  unfold Char.ofNat
  rw [dif_pos h]
  rfl

theorem isValidChar_toNat (c : Char) : c.toNat.isValidChar := c.valid

theorem encode_cons (c : Char) (cs : List Char) :
    encode (c :: cs) = encodeChar c.toNat ++ encode cs := by
  simp [encode]

theorem encodeChar_one {n : Nat} (h : n < 0x80) : encodeChar n = [n] := by
  rw [encodeChar, if_pos h]

theorem encodeChar_two {n : Nat} (h1 : 0x80 ≤ n) (h2 : n < 0x800) :
    encodeChar n = [0xC0 + n / 64, 0x80 + n % 64] := by
  rw [encodeChar, if_neg (by omega), if_pos h2]

theorem encodeChar_three {n : Nat} (h1 : 0x800 ≤ n) (h2 : n < 0x10000) :
    encodeChar n = [0xE0 + n / 4096, 0x80 + n / 64 % 64, 0x80 + n % 64] := by
  rw [encodeChar, if_neg (by omega), if_neg (by omega), if_pos h2]

theorem encodeChar_four {n : Nat} (h1 : 0x10000 ≤ n) :
    encodeChar n = [0xF0 + n / 0x40000, 0x80 + n / 4096 % 64, 0x80 + n / 64 % 64,
      0x80 + n % 64] := by
  rw [encodeChar, if_neg (by omega), if_neg (by omega), if_neg (by omega)]

theorem decodeSt_encodeChar {n : Nat} (h : n.isValidChar) (l : List Nat) :
    decodeSt none (encodeChar n ++ l) =
      (decodeSt none l).map (fun cs => Char.ofNat n :: cs) := by
  have hv : n < 0xD800 ∨ (0xDFFF < n ∧ n < 0x110000) := h
  by_cases h1 : n < 0x80
  · rw [encodeChar_one h1]
    show decodeSt none (n :: l) = _
    have c1 : n ≤ 0x7F := by omega
    simp only [decodeSt, c1, if_true, ite_true]
  by_cases h2 : n < 0x800
  · rw [encodeChar_two (by omega) h2]
    show decodeSt none ((0xC0 + n / 64) :: (0x80 + n % 64) :: l) = _
    have c1 : ¬ (0xC0 + n / 64 ≤ 0x7F) := by omega
    have c2 : 0xC0 ≤ 0xC0 + n / 64 ∧ 0xC0 + n / 64 ≤ 0xDF := by omega
    have c3 : isCont (0x80 + n % 64) := ⟨by omega, by omega⟩
    have hcp : (0xC0 + n / 64 - 0xC0) * 64 + (0x80 + n % 64 - 0x80) = n := by omega
    have c4 : 0x80 ≤ n ∧ n ≤ 0x10FFFF ∧ (n < 0xD800 ∨ 0xDFFF < n) := by omega
    simp only [decodeSt, c1, c2, c3, hcp, c4, and_self, and_true, true_and,
      if_true, if_false, ite_true, ite_false, Nat.le_refl]
  by_cases h3 : n < 0x10000
  · rw [encodeChar_three (by omega) h3]
    show decodeSt none
      ((0xE0 + n / 4096) :: (0x80 + n / 64 % 64) :: (0x80 + n % 64) :: l) = _
    have c1 : ¬ (0xE0 + n / 4096 ≤ 0x7F) := by omega
    have c2 : ¬ (0xC0 ≤ 0xE0 + n / 4096 ∧ 0xE0 + n / 4096 ≤ 0xDF) := by omega
    have c3 : 0xE0 ≤ 0xE0 + n / 4096 ∧ 0xE0 + n / 4096 ≤ 0xEF := by omega
    have c4 : isCont (0x80 + n / 64 % 64) := ⟨by omega, by omega⟩
    have c5 : isCont (0x80 + n % 64) := ⟨by omega, by omega⟩
    have hcp : ((0xE0 + n / 4096 - 0xE0) * 64 + (0x80 + n / 64 % 64 - 0x80)) * 64 +
        (0x80 + n % 64 - 0x80) = n := by omega
    have c6 : 0x800 ≤ n ∧ n ≤ 0x10FFFF ∧ (n < 0xD800 ∨ 0xDFFF < n) := by omega
    have c0 : ¬ ((2:Nat) ≤ 1) := by omega
    have csub : (2:Nat) - 1 = 1 := rfl
    simp only [decodeSt, c0, csub, c1, c2, c3, c4, c5, hcp, c6, and_self, and_true, true_and,
      if_true, if_false, ite_true, ite_false, Nat.le_refl]
  · rw [encodeChar_four (by omega)]
    show decodeSt none ((0xF0 + n / 0x40000) :: (0x80 + n / 4096 % 64) ::
      (0x80 + n / 64 % 64) :: (0x80 + n % 64) :: l) = _
    have c1 : ¬ (0xF0 + n / 0x40000 ≤ 0x7F) := by omega
    have c2 : ¬ (0xC0 ≤ 0xF0 + n / 0x40000 ∧ 0xF0 + n / 0x40000 ≤ 0xDF) := by omega
    have c3 : ¬ (0xE0 ≤ 0xF0 + n / 0x40000 ∧ 0xF0 + n / 0x40000 ≤ 0xEF) := by omega
    have c4 : 0xF0 ≤ 0xF0 + n / 0x40000 ∧ 0xF0 + n / 0x40000 ≤ 0xF7 := by
      constructor
      · omega
      · have : n / 0x40000 ≤ 7 := by omega
        omega
    have c5 : isCont (0x80 + n / 4096 % 64) := ⟨by omega, by omega⟩
    have c6 : isCont (0x80 + n / 64 % 64) := ⟨by omega, by omega⟩
    have c7 : isCont (0x80 + n % 64) := ⟨by omega, by omega⟩
    have hcp : (((0xF0 + n / 0x40000 - 0xF0) * 64 + (0x80 + n / 4096 % 64 - 0x80)) * 64 +
        (0x80 + n / 64 % 64 - 0x80)) * 64 + (0x80 + n % 64 - 0x80) = n := by omega
    have c8 : 0x10000 ≤ n ∧ n ≤ 0x10FFFF ∧ (n < 0xD800 ∨ 0xDFFF < n) := by omega
    have c0 : ¬ ((3:Nat) ≤ 1) := by omega
    have c0' : ¬ ((2:Nat) ≤ 1) := by omega
    have csub3 : (3:Nat) - 1 = 2 := rfl
    have csub2 : (2:Nat) - 1 = 1 := rfl
    simp only [decodeSt, c0, c0', csub3, csub2, c1, c2, c3, c4, c5, c6, c7, hcp, c8,
      and_self, and_true, true_and, if_true, if_false, ite_true, ite_false, Nat.le_refl]

end Utf8

end Png

namespace Png
namespace Utf8

theorem decode_encode (cs : List Char) : decode (encode cs) = some cs := by
  induction cs with
  | nil => rfl
  | cons c cs ih =>
    rw [decode, encode_cons, decodeSt_encodeChar (isValidChar_toNat c)]
    rw [decode] at ih
    rw [ih]
    simp [Char.ofNat_toNat]

set_option maxRecDepth 4000 in
theorem encode_decodeSt :
    ∀ (N : Nat) (bs : List Nat), bs.length ≤ N →
      ∀ cs, decodeSt none bs = some cs → encode cs = bs := by
  intro N
  induction N with
  | zero =>
    intro bs hlen cs h
    have : bs = [] := List.eq_nil_of_length_eq_zero (by omega)
    subst this
    simp only [decodeSt, Option.some.injEq] at h
    subst h
    rfl
  | succ N ih =>
    intro bs hlen cs h
    cases bs with
    | nil =>
      simp only [decodeSt, Option.some.injEq] at h
      subst h
      rfl
    | cons b0 rest =>
      simp only [decodeSt] at h
      split at h
      case isTrue hb0 =>
        -- ASCII byte
        rw [Option.map_eq_some'] at h
        obtain ⟨cs', hrest, rfl⟩ := h
        have henc := ih rest (by simp at hlen; omega) cs' hrest
        rw [encode_cons, toNat_ofNat_valid (Or.inl (by omega)), encodeChar_one (by omega),
          henc]
        rfl
      case isFalse hb0 =>
        split at h
        case isTrue hb2 =>
          -- two-byte sequence
          cases rest with
          | nil => exact absurd h (by simp [decodeSt])
          | cons b1 rest2 =>
            simp only [decodeSt] at h
            split at h
            case isFalse => exact absurd h (by simp)
            case isTrue hc1 =>
              rw [if_pos (by omega)] at h
              split at h
              case isFalse => exact absurd h (by simp)
              case isTrue hguard =>
                rw [Option.map_eq_some'] at h
                obtain ⟨cs', hrest, rfl⟩ := h
                have henc := ih rest2 (by simp at hlen; omega) cs' hrest
                obtain ⟨hc1a, hc1b⟩ := hc1
                obtain ⟨hg1, hg2, hg3⟩ := hguard
                have hlt : (b0 - 0xC0) * 64 + (b1 - 0x80) < 0x800 := by omega
                rw [encode_cons, toNat_ofNat_valid (Or.inl (by omega)),
                  encodeChar_two hg1 hlt, henc]
                simp only [List.cons_append, List.nil_append, List.cons.injEq]
                exact ⟨by omega, by omega, trivial⟩
        case isFalse hb2 =>
          split at h
          case isTrue hb3 =>
            -- three-byte sequence
            cases rest with
            | nil => exact absurd h (by simp [decodeSt])
            | cons b1 rest2 =>
              have c0 : ¬ ((2:Nat) ≤ 1) := by omega
              have csub : (2:Nat) - 1 = 1 := rfl
              simp only [decodeSt, c0, csub, ite_false, if_false] at h
              split at h
              case isFalse => exact absurd h (by simp)
              case isTrue hc1 =>
                cases rest2 with
                | nil => exact absurd h (by simp [decodeSt])
                | cons b2 rest3 =>
                  simp only [decodeSt, Nat.le_refl, ite_true, if_true] at h
                  split at h
                  case isFalse => exact absurd h (by simp)
                  case isTrue hc2 =>
                    split at h
                    case isFalse => exact absurd h (by simp)
                    case isTrue hguard =>
                      rw [Option.map_eq_some'] at h
                      obtain ⟨cs', hrest, rfl⟩ := h
                      have henc := ih rest3 (by simp at hlen; omega) cs' hrest
                      obtain ⟨hc1a, hc1b⟩ := hc1
                      obtain ⟨hc2a, hc2b⟩ := hc2
                      obtain ⟨hg1, hg2, hg3⟩ := hguard
                      have hvalid : ((b0 - 0xE0) * 64 + (b1 - 0x80)) * 64 + (b2 - 0x80) < 0xD800 ∨
                          (0xDFFF < ((b0 - 0xE0) * 64 + (b1 - 0x80)) * 64 + (b2 - 0x80) ∧
                            ((b0 - 0xE0) * 64 + (b1 - 0x80)) * 64 + (b2 - 0x80) < 0x110000) := by
                        omega
                      have hlt : ((b0 - 0xE0) * 64 + (b1 - 0x80)) * 64 + (b2 - 0x80) < 0x10000 := by
                        omega
                      rw [encode_cons, toNat_ofNat_valid hvalid, encodeChar_three hg1 hlt, henc]
                      simp only [List.cons_append, List.nil_append, List.cons.injEq]
                      exact ⟨by omega, by omega, by omega, trivial⟩
          case isFalse hb3 =>
            split at h
            case isTrue hb4 =>
              -- four-byte sequence
              cases rest with
              | nil => exact absurd h (by simp [decodeSt])
              | cons b1 rest2 =>
                have c0 : ¬ ((3:Nat) ≤ 1) := by omega
                have csub : (3:Nat) - 1 = 2 := rfl
                simp only [decodeSt, c0, csub, ite_false, if_false] at h
                split at h
                case isFalse => exact absurd h (by simp)
                case isTrue hc1 =>
                  cases rest2 with
                  | nil => exact absurd h (by simp [decodeSt])
                  | cons b2 rest3 =>
                    have c0' : ¬ ((2:Nat) ≤ 1) := by omega
                    have csub' : (2:Nat) - 1 = 1 := rfl
                    simp only [decodeSt, c0', csub', ite_false, if_false] at h
                    split at h
                    case isFalse => exact absurd h (by simp)
                    case isTrue hc2 =>
                      cases rest3 with
                      | nil => exact absurd h (by simp [decodeSt])
                      | cons b3 rest4 =>
                        simp only [decodeSt, Nat.le_refl, ite_true, if_true] at h
                        split at h
                        case isFalse => exact absurd h (by simp)
                        case isTrue hc3 =>
                          split at h
                          case isFalse => exact absurd h (by simp)
                          case isTrue hguard =>
                            rw [Option.map_eq_some'] at h
                            obtain ⟨cs', hrest, rfl⟩ := h
                            have henc := ih rest4 (by simp at hlen; omega) cs' hrest
                            obtain ⟨hc1a, hc1b⟩ := hc1
                            obtain ⟨hc2a, hc2b⟩ := hc2
                            obtain ⟨hc3a, hc3b⟩ := hc3
                            obtain ⟨hg1, hg2, hg3⟩ := hguard
                            have hvalid : (((b0 - 0xF0) * 64 + (b1 - 0x80)) * 64 + (b2 - 0x80)) * 64 +
                                (b3 - 0x80) < 0xD800 ∨
                                (0xDFFF < (((b0 - 0xF0) * 64 + (b1 - 0x80)) * 64 + (b2 - 0x80)) * 64 +
                                  (b3 - 0x80) ∧
                                  (((b0 - 0xF0) * 64 + (b1 - 0x80)) * 64 + (b2 - 0x80)) * 64 +
                                    (b3 - 0x80) < 0x110000) := by
                              omega
                            rw [encode_cons, toNat_ofNat_valid hvalid, encodeChar_four hg1, henc]
                            simp only [List.cons_append, List.nil_append, List.cons.injEq]
                            exact ⟨by omega, by omega, by omega, by omega, trivial⟩
            case isFalse hb4 =>
              exact absurd h (by simp)

end Utf8
end Png

namespace Png
namespace Utf8

theorem encode_decode {bs : List Nat} {cs : List Char} (h : decode bs = some cs) :
    encode cs = bs :=
  encode_decodeSt bs.length bs le_rfl cs h

end Utf8

/-- C8: `data_as_string` returns Ok exactly on the strings whose UTF-8
encoding is the payload (strict decoding, no lossy replacement), and the
fixed ValidationError otherwise; the embedding is pure, so the payload is
never modified. -/
theorem claim_C8 (c : Chunk) :
    (∀ s : String, c.data_as_string = .ok s ↔ Utf8.encode s.data = c.data) ∧
    ((¬ ∃ s : String, Utf8.encode s.data = c.data) →
      c.data_as_string = .error ("chunk data is not valid utf8")) := by
  constructor
  · intro s
    constructor
    · intro h
      rcases hdec : Utf8.decode c.data with _ | cs
      · rw [Chunk.data_as_string, hdec] at h
        cases h
      · rw [Chunk.data_as_string, hdec] at h
        simp only [Except.ok.injEq] at h
        subst h
        exact Utf8.encode_decode hdec
    · intro h
      have hdec : Utf8.decode c.data = some s.data := by
        rw [← h, Utf8.decode_encode]
      rw [Chunk.data_as_string, hdec]
  · intro h
    rcases hdec : Utf8.decode c.data with _ | cs
    · rw [Chunk.data_as_string, hdec]
    · exact absurd ⟨String.mk cs, Utf8.encode_decode hdec⟩ h

/-- C8 witness: an ASCII payload decodes to its text. -/
theorem claim_C8_witness :
    (Chunk.mk ⟨82, 117, 83, 116⟩ [72, 105]).data_as_string = .ok "Hi" :=
  ((claim_C8 (Chunk.mk ⟨82, 117, 83, 116⟩ [72, 105])).1 "Hi").mpr (by decide)

end Png
